import Mathlib

/-!
Verification development for the pyswarms repository.

Part 1 embeds `GridSearch.generate_grid` from
`pyswarms/utils/search/grid_search.py`.  An options dictionary is modelled as
an ordered association list from keys to values (Python dictionaries preserve
insertion order and have distinct keys); a value is either a scalar or a list
of candidate values.

Part 2 models the `BinaryPSO` optimizer.  Its source module is not part of
the repository snapshot (only `tests/optimizers/test_binary.py` observes it),
so the optimizer is modelled from the specification: option validation,
swarm state, neighbor topology, velocity and position update rules, history
recording and the optimization loop.
-/

namespace PySwarmsProof

/-- A value in the options dictionary of `GridSearch`: either a scalar or a
list of candidate values.  In `grid_search.py` the test `type(x) == list`
separates the two cases. -/
inductive OptValue (α : Type) where
  | scalar : α → OptValue α
  | list : List α → OptValue α
deriving DecidableEq

/-- Line 71 of `grid_search.py`: `x if type(x) == list else [x]`, wrapping a
scalar value into a singleton list and keeping a list value as it is. -/
def asList {α : Type} : OptValue α → List α
  | .scalar a => [a]
  | .list l => l

/-- Line 72 of `grid_search.py`: `list(zip(*self.options.items()))[1]`.
Transposing the items list yields two rows (the key row, then the value row)
when the dictionary is nonempty, and no rows at all when it is empty; the
index-1 access therefore returns the value column for a nonempty dictionary
and raises IndexError (modelled as `none`) for an empty one. -/
def itemValues {α : Type} (options : List (String × OptValue α)) :
    Option (List (OptValue α)) :=
  match options with
  | [] => none
  | _ :: _ => some (options.map Prod.snd)

/-- Model of `itertools.product` applied to a list of pools (line 75 of
`grid_search.py`): every combination picking one element from each pool, in
lexicographic order with the first pool varying slowest. -/
def product {α : Type} : List (List α) → List (List α)
  | [] => [[]]
  | l :: ls => l.bind (fun a => (product ls).map (fun t => a :: t))

/-- Embedding of `GridSearch.generate_grid` (lines 66-78 of
`grid_search.py`).  The
final `dict(zip(*[params, list(x)]))` is modelled by zipping the key list
with a combination; the keys of an options dictionary are distinct, so no
deduplication is involved. -/
def generate_grid {α : Type} (options : List (String × OptValue α)) :
    Option (List (List (String × α))) :=
  match itemValues options with
  | none => none
  | some vals =>
    let params := options.map Prod.fst
    let items := vals.map asList
    let list_of_products := product items
    some (list_of_products.map (fun x => List.zip params x))

/-- Number of combinations of a list of pools. -/
def sizesProd {α : Type} (ls : List (List α)) : ℕ := (ls.map List.length).prod

/-- Mixed-radix rank of an index vector into the pools: the first index is
the most significant digit, so it varies slowest along increasing rank. -/
def rank {α : Type} : List (List α) → List ℕ → ℕ
  | _ :: ls, i :: idxs => i * sizesProd ls + rank ls idxs
  | _, _ => 0

/-- The combination selected by an index vector: one element from each pool. -/
def select {α : Type} : List (List α) → List ℕ → List α
  | l :: ls, i :: idxs => (l.get? i).toList ++ select ls idxs
  | _, _ => []

theorem mem_product {α : Type} :
    ∀ (ls : List (List α)) (x : List α),
      x ∈ product ls ↔ List.Forall₂ (fun a l => a ∈ l) x ls := by
  intro ls
  induction ls with
  | nil =>
    intro x
    simp [product, List.forall₂_nil_right_iff]
  | cons l ls ih =>
    intro x
    simp only [product, List.mem_bind, List.mem_map]
    constructor
    · rintro ⟨a, ha, t, ht, rfl⟩
      exact List.Forall₂.cons ha ((ih t).1 ht)
    · intro h
      rcases List.forall₂_cons_right_iff.1 h with ⟨a, t, ha, ht, rfl⟩
      exact ⟨a, ha, t, (ih t).2 ht, rfl⟩

theorem length_bind_const {α β : Type} (l : List α) (f : α → List β) (m : ℕ)
    (h : ∀ a ∈ l, (f a).length = m) : (l.bind f).length = l.length * m := by
  induction l with
  | nil => simp
  | cons a l ih =>
    simp only [List.cons_bind, List.length_append, List.length_cons]
    rw [h a (by simp), ih (fun b hb => h b (by simp [hb]))]
    ring

theorem length_product {α : Type} :
    ∀ ls : List (List α), (product ls).length = sizesProd ls := by
  intro ls
  induction ls with
  | nil => rfl
  | cons l ls ih =>
    have h := length_bind_const l (fun a => (product ls).map (fun t => a :: t))
      (product ls).length (by intro a _; simp)
    simp only [product, sizesProd, List.map_cons, List.prod_cons]
    rw [h, ih]
    rfl

theorem rank_lt {α : Type} (ls : List (List α)) (idxs : List ℕ)
    (h : List.Forall₂ (fun i l => i < l.length) idxs ls) :
    rank ls idxs < sizesProd ls := by
  induction h with
  | nil => simp [rank, sizesProd]
  | @cons i l idxs ls hil htail ih =>
    simp only [rank, sizesProd, List.map_cons, List.prod_cons]
    have h1 : i * sizesProd ls + rank ls idxs < (i + 1) * sizesProd ls := by
      rw [Nat.succ_mul]
      omega
    have h2 : (i + 1) * sizesProd ls ≤ l.length * sizesProd ls :=
      Nat.mul_le_mul_right _ hil
    calc i * sizesProd ls + rank ls idxs < (i + 1) * sizesProd ls := h1
      _ ≤ l.length * sizesProd ls := h2

theorem get?_bind_const {α β : Type} (f : α → List β) (m : ℕ) :
    ∀ (l : List α) (i r : ℕ), (∀ a ∈ l, (f a).length = m) → i < l.length →
      r < m →
      (l.bind f).get? (i * m + r) = (l.get? i).bind (fun a => (f a).get? r) := by
  intro l
  induction l with
  | nil => intro i r _ hi _; simp at hi
  | cons a l ih =>
    intro i r hm hi hr
    cases i with
    | zero =>
      simp only [List.cons_bind, Nat.zero_mul, Nat.zero_add]
      rw [List.get?_append (by rw [hm a (by simp)]; exact hr)]
      simp
    | succ i =>
      simp only [List.cons_bind]
      rw [List.get?_append_right (by rw [hm a (by simp)]; rw [Nat.succ_mul]; omega)]
      rw [hm a (by simp)]
      have heq : (i + 1) * m + r - m = i * m + r := by rw [Nat.succ_mul]; omega
      rw [heq, ih i r (fun b hb => hm b (by simp [hb])) (by simpa using hi) hr]
      simp

theorem product_get? {α : Type} (ls : List (List α)) (idxs : List ℕ)
    (h : List.Forall₂ (fun i l => i < l.length) idxs ls) :
    (product ls).get? (rank ls idxs) = some (select ls idxs) := by
  induction h with
  | nil => rfl
  | @cons i l idxs ls hil htail ih =>
    have hlen : ∀ a ∈ l, ((product ls).map (fun t => a :: t)).length = sizesProd ls := by
      intro a _
      simp [length_product]
    have hr : rank ls idxs < sizesProd ls := rank_lt ls idxs htail
    simp only [product, rank, select]
    rw [get?_bind_const _ (sizesProd ls) l i (rank ls idxs) hlen hil hr]
    rw [List.get?_eq_get hil]
    simp only [Option.some_bind, List.get?_map, ih, Option.map_some']
    rfl

theorem zip_mem_forall₂ {α : Type} :
    ∀ (options : List (String × OptValue α)) (combo : List (String × α)),
      (∃ x, List.Forall₂ (fun a l => a ∈ l) x (options.map (fun kv => asList kv.2)) ∧
        combo = List.zip (options.map Prod.fst) x)
      ↔ List.Forall₂ (fun kv ko => kv.1 = ko.1 ∧ kv.2 ∈ asList ko.2) combo options := by
  intro options
  induction options with
  | nil =>
    intro combo
    simp [List.forall₂_nil_right_iff]
  | cons kv opts ih =>
    intro combo
    constructor
    · rintro ⟨x, hx, rfl⟩
      rcases List.forall₂_cons_right_iff.1 hx with ⟨a, x', ha, hx', rfl⟩
      simp only [List.map_cons, List.zip_cons_cons]
      exact List.Forall₂.cons ⟨rfl, ha⟩ ((ih _).1 ⟨x', hx', rfl⟩)
    · intro h
      rcases List.forall₂_cons_right_iff.1 h with ⟨p, combo', hp, hcombo', rfl⟩
      rcases (ih combo').2 hcombo' with ⟨x', hx', rfl⟩
      refine ⟨p.2 :: x', List.Forall₂.cons hp.2 hx', ?_⟩
      rcases p with ⟨p1, p2⟩
      rcases hp with ⟨hk, _⟩
      simp only at hk
      subst hk
      simp [List.zip_cons_cons]

/-- C1 (amended): for every NONEMPTY options dictionary in which each key
maps either to a scalar or to a list of candidate values,
`generate_grid` returns the list of all dictionaries formed by the
cartesian product of the per-key candidate lists (a scalar counting as a
one-element list), one dictionary per combination; each returned
dictionary binds exactly the keys of the options, in the key order of the
options, to one candidate of the respective key.  (At the empty options
dictionary the code raises IndexError instead of returning the singleton
grid, see the counterexample.) -/
theorem generate_grid_cartesian {α : Type} (options : List (String × OptValue α))
    (h : options ≠ []) :
    ∃ g, generate_grid options = some g ∧
      g.length = sizesProd (options.map (fun kv => asList kv.2)) ∧
      ∀ combo, combo ∈ g ↔
        List.Forall₂ (fun kv ko => kv.1 = ko.1 ∧ kv.2 ∈ asList ko.2) combo options := by
  match options, h with
  | o :: os, _ =>
    refine ⟨_, rfl, ?_, ?_⟩
    · simp only [List.length_map, length_product, List.map_map]
      rfl
    · intro combo
      rw [List.mem_map]
      constructor
      · rintro ⟨x, hx, rfl⟩
        refine (zip_mem_forall₂ (o :: os) _).1 ⟨x, ?_, rfl⟩
        have hm := (mem_product _ x).1 hx
        simpa [List.map_map, Function.comp] using hm
      · intro hc
        rcases (zip_mem_forall₂ (o :: os) combo).2 hc with ⟨x, hx, rfl⟩
        refine ⟨x, ?_, rfl⟩
        rw [mem_product]
        simpa [List.map_map, Function.comp] using hx

/-- C1 witness: the amended theorem applied to a concrete two-key options
dictionary. -/
theorem generate_grid_cartesian_witness :
    ∃ g, generate_grid [("c1", OptValue.list [1, 2]), ("p", OptValue.scalar (7 : ℕ))] = some g ∧
      g.length = sizesProd ([("c1", OptValue.list [1, 2]),
        ("p", OptValue.scalar (7 : ℕ))].map (fun kv => asList kv.2)) ∧
      ∀ combo, combo ∈ g ↔
        List.Forall₂ (fun kv ko => kv.1 = ko.1 ∧ kv.2 ∈ asList ko.2) combo
          [("c1", OptValue.list [1, 2]), ("p", OptValue.scalar (7 : ℕ))] :=
  generate_grid_cartesian _ (List.cons_ne_nil _ _)

/-- C1 counterexample: at the empty options dictionary the cartesian
product of zero candidate lists would be the one-element grid containing
the empty combination, but `generate_grid` returns no grid at all: the
extraction `list(zip(*self.options.items()))[1]` raises IndexError,
modelled as `none`. -/
theorem generate_grid_empty_no_result :
    ¬ ∃ g : List (List (String × ℕ)),
      generate_grid ([] : List (String × OptValue ℕ)) = some g := by
  rintro ⟨g, hg⟩
  simp [generate_grid, itemValues] at hg

/-- C2: the grid returned by `generate_grid` is in itertools-style
lexicographic product order over the per-key candidate lists: for every
valid index vector, the combination whose per-key choice indices are the
digits of a mixed-radix number (first-listed key most significant, hence
varying slowest; last-listed key least significant, hence varying fastest)
sits at exactly that mixed-radix position of the returned list, and the
list has exactly one entry per combination. -/
theorem generate_grid_order {α : Type} (options : List (String × OptValue α))
    (g : List (List (String × α))) (hg : generate_grid options = some g)
    (idxs : List ℕ)
    (hv : List.Forall₂ (fun i l => i < l.length) idxs
      (options.map (fun kv => asList kv.2))) :
    g.length = sizesProd (options.map (fun kv => asList kv.2)) ∧
    g.get? (rank (options.map (fun kv => asList kv.2)) idxs)
      = some (List.zip (options.map Prod.fst)
          (select (options.map (fun kv => asList kv.2)) idxs)) := by
  match options with
  | [] => simp [generate_grid, itemValues] at hg
  | o :: os =>
    have hg' : g = (product (((o :: os).map Prod.snd).map asList)).map
        (fun x => List.zip ((o :: os).map Prod.fst) x) := by
      simp only [generate_grid, itemValues] at hg
      exact (Option.some.inj hg).symm
    subst hg'
    constructor
    · simp only [List.length_map, length_product, List.map_map]
      rfl
    · have hv' : List.Forall₂ (fun i l => i < l.length) idxs
          (((o :: os).map Prod.snd).map asList) := by
        simpa [List.map_map, Function.comp] using hv
      rw [List.get?_map]
      have hp := product_get? (((o :: os).map Prod.snd).map asList) idxs hv'
      have hrk : rank ((o :: os).map (fun kv => asList kv.2)) idxs
          = rank (((o :: os).map Prod.snd).map asList) idxs := by
        rw [List.map_map]
        rfl
      have hsel : select (((o :: os).map Prod.snd).map asList) idxs
          = select ((o :: os).map (fun kv => asList kv.2)) idxs := by
        rw [List.map_map]
        rfl
      rw [hrk, hp, hsel]
      rfl

/-- Concrete options dictionary used by the C2 witness. -/
def optsW : List (String × OptValue ℕ) :=
  [("a", OptValue.list [10, 20]), ("b", OptValue.list [1, 2, 3])]

/-- C2 witness: the order theorem applied at index vector [1, 2], whose
mixed-radix rank is 1 * 3 + 2 = 5, the last slot of the 2 * 3 grid. -/
theorem generate_grid_order_witness :
    ((generate_grid optsW).getD []).length
      = sizesProd (optsW.map (fun kv => asList kv.2)) ∧
    ((generate_grid optsW).getD []).get?
        (rank (optsW.map (fun kv => asList kv.2)) [1, 2])
      = some (List.zip (optsW.map Prod.fst)
          (select (optsW.map (fun kv => asList kv.2)) [1, 2])) :=
  generate_grid_order optsW ((generate_grid optsW).getD []) (by rfl) [1, 2]
    (by decide)

/-- The options dictionary of the 81-combination example in the spec and in
the module docstring of `grid_search.py`. -/
def options81 : List (String × OptValue ℤ) :=
  [("c1", OptValue.list [1, 2, 3]), ("c2", OptValue.list [1, 2, 3]),
   ("w", OptValue.list [2, 3, 5]), ("k", OptValue.list [5, 10, 15]),
   ("p", OptValue.scalar 1)]

/-- C3: on the example options, `generate_grid` yields exactly 81
combinations, and every returned dictionary binds the five keys c1, c2, w,
k, p in order, with p equal to 1 in every entry. -/
theorem generate_grid_81 :
    (generate_grid options81).isSome = true ∧
    ((generate_grid options81).getD []).length = 81 ∧
    ∀ d ∈ (generate_grid options81).getD [],
      d.map Prod.fst = ["c1", "c2", "w", "k", "p"] ∧ ("p", (1 : ℤ)) ∈ d := by
  decide

/-- C10: called on an empty options dictionary, `generate_grid` does not
return the one-element grid containing the empty combination: the internal
extraction indexes into an empty transposed sequence and fails (IndexError,
modelled as `none`); on every nonempty options dictionary it returns a
grid. -/
theorem generate_grid_empty_fails :
    generate_grid ([] : List (String × OptValue ℕ)) = none ∧
    ∀ options : List (String × OptValue ℕ), options ≠ [] →
      (generate_grid options).isSome = true := by
  refine ⟨rfl, ?_⟩
  intro options h
  match options, h with
  | _ :: _, _ => rfl

/-- C10 witness: totality on a concrete nonempty options dictionary. -/
theorem generate_grid_empty_fails_witness :
    (generate_grid [("c1", OptValue.scalar (1 : ℕ))]).isSome = true :=
  generate_grid_empty_fails.2 _ (List.cons_ne_nil _ _)

/-- Modelled from the spec: the error taxonomy of section 7 for the missing
`BinaryPSO` constructor (only `tests/optimizers/test_binary.py` is in the
snapshot).  MissingOption carries the name of the absent key; the tests
observe these as KeyError, ValueError and TypeError/IndexError. -/
inductive PSOError where
  | MissingOption : String → PSOError
  | InvalidParameter : PSOError
  | TypeMismatch : PSOError
deriving DecidableEq

/-- Modelled from the spec: a HyperparameterSet as handed to the constructor
(section 3), each of the five required keys possibly absent.  c1, c2, w are
reals (modelled as ℚ), k and p integers. -/
structure OptionsDict where
  c1 : Option ℚ
  c2 : Option ℚ
  w : Option ℚ
  k : Option ℤ
  p : Option ℤ
deriving DecidableEq

/-- Modelled from the spec: check (d) of OptionValidator (section 4.1): a
VelocityClamp, if given, must be a 2-element ordered pair, else TypeMismatch;
a pair with v_min not below v_max is an InvalidParameter. -/
def checkClamp : Option (List ℚ) → Option PSOError
  | none => none
  | some vc =>
    if vc.length ≠ 2 then some .TypeMismatch
    else if vc.getD 1 0 ≤ vc.getD 0 0 then some .InvalidParameter
    else none

/-- Modelled from the spec: OptionValidator (section 4.1), raising on the
first violated check in order: (a) the five required keys present, (b)
0 < k ≤ n_particles, (c) p in \x7b1, 2\x7d, (d) the velocity clamp. -/
def validateOptions (o : OptionsDict) (n_particles : ℕ)
    (velocity_clamp : Option (List ℚ)) : Option PSOError :=
  match o.c1, o.c2, o.w, o.k, o.p with
  | none, _, _, _, _ => some (.MissingOption "c1")
  | some _, none, _, _, _ => some (.MissingOption "c2")
  | some _, some _, none, _, _ => some (.MissingOption "w")
  | some _, some _, some _, none, _ => some (.MissingOption "k")
  | some _, some _, some _, some _, none => some (.MissingOption "p")
  | some _, some _, some _, some k, some p =>
    if ¬ (0 < k ∧ k ≤ (n_particles : ℤ)) then some .InvalidParameter
    else if ¬ (p = 1 ∨ p = 2) then some .InvalidParameter
    else checkClamp velocity_clamp

/-- Modelled from the spec: an explicit random source (design note, section
9), a linear congruential generator over ℕ. -/
def lcg (s : ℕ) : ℕ := (s * 1103515245 + 12345) % 2147483648

/-- A list of uniform draws in [0,1) together with the advanced source. -/
def drawList : ℕ → ℕ → List ℚ × ℕ
  | 0, g => ([], g)
  | n + 1, g =>
    (((lcg g : ℚ) / 2147483648) :: (drawList n (lcg g)).1, (drawList n (lcg g)).2)

/-- A rows × cols matrix of uniform draws together with the advanced source. -/
def drawMatrix : ℕ → ℕ → ℕ → List (List ℚ) × ℕ
  | 0, _, g => ([], g)
  | r + 1, c, g =>
    ((drawList c g).1 :: (drawMatrix r c (drawList c g).2).1,
     (drawMatrix r c (drawList c g).2).2)

/-- Modelled from the spec: initial binary positions (section 4.2),
independent binary draws with fixed marginal probability 1/2. -/
def drawBitMatrix (r c g : ℕ) : List (List Bool) × ℕ :=
  ((drawMatrix r c g).1.map (fun row => row.map (fun q => decide (q < (1 : ℚ)/2))),
   (drawMatrix r c g).2)

/-- Modelled from the spec: the validated configuration of one optimizer
(sections 3 and 6).  The sigmoid transform of the binary position update
rule (section 4.5) is a transcendental real function with no exact rational
form, so the model keeps it as an explicit field of the configuration;
every property proved below holds for every choice of this field. -/
structure PSOConfig where
  n_particles : ℕ
  dimensions : ℕ
  c1 : ℚ
  c2 : ℚ
  w : ℚ
  k : ℕ
  p : ℤ
  velocity_clamp : Option (ℚ × ℚ)
  sigmoid : ℚ → ℚ

/-- Modelled from the spec: SwarmState plus History (sections 3 and 4.2):
binary positions, rational velocities, personal bests (cost +∞ before any
evaluation), the swarm-wide best (cost +∞, position undefined), the five
per-iteration histories, and the random source. -/
structure Swarm where
  pos : List (List Bool)
  vel : List (List ℚ)
  pbest_pos : List (List Bool)
  pbest_cost : List (WithTop ℚ)
  best_cost : WithTop ℚ
  best_pos : Option (List Bool)
  cost_history : List (WithTop ℚ)
  mean_pbest_history : List (WithTop ℚ)
  mean_neighbor_history : List (WithTop ℚ)
  pos_history : List (List (List Bool))
  vel_history : List (List (List ℚ))
  rng : ℕ

/-- Modelled from the spec: SwarmState initialization (section 4.2):
positions drawn as independent binary draws, velocities zero, personal-best
positions equal to the initial positions, personal-best costs +∞ so the
first evaluation always improves them, swarm-wide best cost +∞ and best
position undefined, histories empty. -/
def initSwarm (cfg : PSOConfig) (seed : ℕ) : Swarm :=
  { pos := (drawBitMatrix cfg.n_particles cfg.dimensions seed).1,
    vel := List.replicate cfg.n_particles (List.replicate cfg.dimensions 0),
    pbest_pos := (drawBitMatrix cfg.n_particles cfg.dimensions seed).1,
    pbest_cost := List.replicate cfg.n_particles ⊤,
    best_cost := ⊤,
    best_pos := none,
    cost_history := [],
    mean_pbest_history := [],
    mean_neighbor_history := [],
    pos_history := [],
    vel_history := [],
    rng := (drawBitMatrix cfg.n_particles cfg.dimensions seed).2 }

/-- Modelled from the spec: reset() (sections 4.2 and 6): discards swarm
and history, restores the construction-time invariants (best cost +∞, best
position undefined), reusing the current random source; callable without
reconstructing the optimizer. -/
def reset (cfg : PSOConfig) (s : Swarm) : Swarm := initSwarm cfg s.rng

/-- Modelled from the spec: the optimizer constructor (section 6): runs
OptionValidator before allocating any swarm state; on success builds the
validated configuration and the initial swarm. -/
def construct (n_particles dimensions : ℕ) (o : OptionsDict)
    (velocity_clamp : Option (List ℚ)) (sigmoid : ℚ → ℚ) (seed : ℕ) :
    Except PSOError Swarm :=
  match validateOptions o n_particles velocity_clamp with
  | some e => .error e
  | none =>
    .ok (initSwarm
      { n_particles := n_particles, dimensions := dimensions,
        c1 := o.c1.getD 0, c2 := o.c2.getD 0, w := o.w.getD 0,
        k := (o.k.getD 0).toNat, p := o.p.getD 0,
        velocity_clamp :=
          match velocity_clamp with
          | some [a, b] => some (a, b)
          | _ => none,
        sigmoid := sigmoid } seed)

/-- Count of differing coordinates of two binary position vectors.  On
binary vectors the L1 Minkowski distance equals this count and the L2
distance is its square root, a monotone image, so the k-nearest ordering
under either norm of section 4.3 (p = 1 or p = 2) is the ordering by this
count. -/
def hamming (x y : List Bool) : ℕ :=
  (List.zipWith (fun a b => if a = b then 0 else 1) x y).sum

/-- Lexicographic comparison on (distance, particle index) pairs: nearer
first, ties broken by particle index ascending. -/
def lexLe (a b : ℕ × ℕ) : Bool := a.1 < b.1 || (a.1 == b.1 && a.2 ≤ b.2)

def insertSorted (a : ℕ × ℕ) : List (ℕ × ℕ) → List (ℕ × ℕ)
  | [] => [a]
  | b :: bs => if lexLe a b then a :: b :: bs else b :: insertSorted a bs

def sortPairs : List (ℕ × ℕ) → List (ℕ × ℕ)
  | [] => []
  | a :: rest => insertSorted a (sortPairs rest)

/-- Modelled from the spec: NeighborTopology (section 4.3): the k nearest
particles of particle i under the distance ordering over the current
positions, ties broken by particle index ascending. -/
def neighbors (k : ℕ) (pos : List (List Bool)) (i : ℕ) : List ℕ :=
  ((sortPairs ((List.range pos.length).map
      (fun j => (hamming (pos.getD i []) (pos.getD j []), j)))).take k).map Prod.snd

/-- Index of a minimum-cost particle among the candidates (the first
minimum encountered is kept). -/
def argminCost (costs : List (WithTop ℚ)) : List ℕ → ℕ
  | [] => 0
  | c :: cs =>
    cs.foldl (fun best j => if costs.getD j ⊤ < costs.getD best ⊤ then j else best) c

def boolToQ (b : Bool) : ℚ := if b then 1 else 0

/-- Componentwise clamp of a velocity into [v_min, v_max] (section 4.4). -/
def clampQ (clamp : Option (ℚ × ℚ)) (v : ℚ) : ℚ :=
  match clamp with
  | none => v
  | some c => max c.1 (min c.2 v)

/-- Modelled from the spec: VelocityUpdateRule (section 4.4) on one
particle: componentwise w * v + c1 * r1 * (pbest - x) + c2 * r2 * (nbest - x)
with fresh uniform draws r1, r2 per dimension, then the optional clamp. -/
def velRow (cfg : PSOConfig) (v x pb nb r1 r2 : List ℚ) : List ℚ :=
  (List.zip v (List.zip x (List.zip pb (List.zip nb (List.zip r1 r2))))).map
    (fun t => clampQ cfg.velocity_clamp
      (cfg.w * t.1 + cfg.c1 * t.2.2.2.2.1 * (t.2.2.1 - t.2.1)
        + cfg.c2 * t.2.2.2.2.2 * (t.2.2.2.1 - t.2.1)))

/-- Modelled from the spec: binary PositionUpdateRule (section 4.5) on one
particle: componentwise x = 1 exactly when the fresh uniform draw u is
below sigmoid(v); the position is recomputed from the velocity each
iteration, not accumulated, and Bounds are never used. -/
def posRow (cfg : PSOConfig) (v u : List ℚ) : List Bool :=
  (List.zip v u).map (fun t => decide (t.2 < cfg.sigmoid t.1))

/-- Personal-best update (section 4.7): keep the new (cost, position)
exactly when the current cost strictly improves the personal best. -/
def updPB (costs : List ℚ) (pbc : List (WithTop ℚ)) (pos pbp : List (List Bool)) :
    List (WithTop ℚ × List Bool) :=
  (List.zip costs (List.zip pbc (List.zip pos pbp))).map
    (fun t => if (t.1 : WithTop ℚ) < t.2.1 then ((t.1 : WithTop ℚ), t.2.2.1)
              else (t.2.1, t.2.2.2))

/-- The velocity update applied to the whole swarm. -/
def velMat (cfg : PSOConfig) (vel : List (List ℚ)) (pos pbp nb : List (List Bool))
    (r1 r2 : List (List ℚ)) : List (List ℚ) :=
  (List.zip vel (List.zip pos (List.zip pbp (List.zip nb (List.zip r1 r2))))).map
    (fun t => velRow cfg t.1 (t.2.1.map boolToQ) (t.2.2.1.map boolToQ)
      (t.2.2.2.1.map boolToQ) t.2.2.2.2.1 t.2.2.2.2.2)

/-- The binary position update applied to the whole swarm. -/
def posMat (cfg : PSOConfig) (vel u : List (List ℚ)) : List (List Bool) :=
  (List.zip vel u).map (fun t => posRow cfg t.1 t.2)

/-- Mean of a cost vector, +∞ when any entry is +∞ (History, section 3). -/
def meanWT (l : List (WithTop ℚ)) : WithTop ℚ :=
  WithTop.map (fun q => q / (l.length : ℚ)) (l.foldr (· + ·) 0)

/-- Step 1 of an iteration (section 4.7): one batched objective evaluation,
one cost per particle. -/
def stepCosts (f : List Bool → ℚ) (s : Swarm) : List ℚ := s.pos.map f

def stepCostsW (f : List Bool → ℚ) (s : Swarm) : List (WithTop ℚ) :=
  (stepCosts f s).map (fun c => (c : WithTop ℚ))

def stepPB (f : List Bool → ℚ) (s : Swarm) : List (WithTop ℚ × List Bool) :=
  updPB (stepCosts f s) s.pbest_cost s.pos s.pbest_pos

def stepPBCost (f : List Bool → ℚ) (s : Swarm) : List (WithTop ℚ) :=
  (stepPB f s).map Prod.fst

def stepPBPos (f : List Bool → ℚ) (s : Swarm) : List (List Bool) :=
  (stepPB f s).map Prod.snd

def stepBestIdx (cfg : PSOConfig) (f : List Bool → ℚ) (s : Swarm) : ℕ :=
  argminCost (stepPBCost f s) (List.range cfg.n_particles)

def stepBestCand (cfg : PSOConfig) (f : List Bool → ℚ) (s : Swarm) : WithTop ℚ :=
  (stepPBCost f s).getD (stepBestIdx cfg f s) ⊤

/-- The swarm-wide best is replaced only on strict improvement by some
personal best (section 4.7). -/
def stepBestCost (cfg : PSOConfig) (f : List Bool → ℚ) (s : Swarm) : WithTop ℚ :=
  if stepBestCand cfg f s < s.best_cost then stepBestCand cfg f s else s.best_cost

def stepBestPos (cfg : PSOConfig) (f : List Bool → ℚ) (s : Swarm) : Option (List Bool) :=
  if stepBestCand cfg f s < s.best_cost
  then some ((stepPBPos f s).getD (stepBestIdx cfg f s) [])
  else s.best_pos

/-- Modelled from the spec: NeighborhoodBest (section 4.3): for each
particle, the minimum-cost particle among its k nearest neighbors and
itself, over the current cost vector. -/
def stepNIdx (cfg : PSOConfig) (f : List Bool → ℚ) (s : Swarm) : List ℕ :=
  (List.range cfg.n_particles).map
    (fun i => argminCost (stepCostsW f s) (i :: neighbors cfg.k s.pos i))

def stepNbPos (cfg : PSOConfig) (f : List Bool → ℚ) (s : Swarm) : List (List Bool) :=
  (stepNIdx cfg f s).map (fun j => s.pos.getD j [])

def stepNbCost (cfg : PSOConfig) (f : List Bool → ℚ) (s : Swarm) : List (WithTop ℚ) :=
  (stepNIdx cfg f s).map (fun j => (stepCostsW f s).getD j ⊤)

def stepR1 (cfg : PSOConfig) (s : Swarm) : List (List ℚ) :=
  (drawMatrix cfg.n_particles cfg.dimensions s.rng).1

def stepG1 (cfg : PSOConfig) (s : Swarm) : ℕ :=
  (drawMatrix cfg.n_particles cfg.dimensions s.rng).2

def stepR2 (cfg : PSOConfig) (s : Swarm) : List (List ℚ) :=
  (drawMatrix cfg.n_particles cfg.dimensions (stepG1 cfg s)).1

def stepG2 (cfg : PSOConfig) (s : Swarm) : ℕ :=
  (drawMatrix cfg.n_particles cfg.dimensions (stepG1 cfg s)).2

def stepU (cfg : PSOConfig) (s : Swarm) : List (List ℚ) :=
  (drawMatrix cfg.n_particles cfg.dimensions (stepG2 cfg s)).1

def stepG3 (cfg : PSOConfig) (s : Swarm) : ℕ :=
  (drawMatrix cfg.n_particles cfg.dimensions (stepG2 cfg s)).2

def stepVel (cfg : PSOConfig) (f : List Bool → ℚ) (s : Swarm) : List (List ℚ) :=
  velMat cfg s.vel s.pos (stepPBPos f s) (stepNbPos cfg f s) (stepR1 cfg s) (stepR2 cfg s)

def stepPos (cfg : PSOConfig) (f : List Bool → ℚ) (s : Swarm) : List (List Bool) :=
  posMat cfg (stepVel cfg f s) (stepU cfg s)

/-- Modelled from the spec: one iteration of OptimizationLoop (section
4.7): evaluate costs, update each personal best on strict improvement,
recompute neighborhood bests, update the swarm-wide best on strict
improvement, apply the velocity then the position update rule, and append
exactly one snapshot to each history. -/
def step (cfg : PSOConfig) (f : List Bool → ℚ) (s : Swarm) : Swarm :=
  { pos := stepPos cfg f s,
    vel := stepVel cfg f s,
    pbest_pos := stepPBPos f s,
    pbest_cost := stepPBCost f s,
    best_cost := stepBestCost cfg f s,
    best_pos := stepBestPos cfg f s,
    cost_history := s.cost_history ++ [stepBestCost cfg f s],
    mean_pbest_history := s.mean_pbest_history ++ [meanWT (stepPBCost f s)],
    mean_neighbor_history := s.mean_neighbor_history ++ [meanWT (stepNbCost cfg f s)],
    pos_history := s.pos_history ++ [stepPos cfg f s],
    vel_history := s.vel_history ++ [stepVel cfg f s],
    rng := stepG3 cfg s }

/-- Modelled from the spec: OptimizationLoop (section 4.7) over a fixed
iteration count; strictly sequential, no early stopping. -/
def optimize (cfg : PSOConfig) (f : List Bool → ℚ) : ℕ → Swarm → Swarm
  | 0, s => s
  | n + 1, s => optimize cfg f n (step cfg f s)

/-- The five required hyperparameter keys (section 3). -/
def requiredKeys : List String := ["c1", "c2", "w", "k", "p"]

/-- Whether the options mapping carries the given key. -/
def hasKey (o : OptionsDict) : String → Bool
  | "c1" => o.c1.isSome
  | "c2" => o.c2.isSome
  | "w" => o.w.isSome
  | "k" => o.k.isSome
  | "p" => o.p.isSome
  | _ => false

/-- All five required keys are present. -/
def complete (o : OptionsDict) : Prop :=
  o.c1.isSome = true ∧ o.c2.isSome = true ∧ o.w.isSome = true ∧
    o.k.isSome = true ∧ o.p.isSome = true

/-- C4: for every options mapping from which one of the five required keys
is absent, construction fails with a MissingOption error identifying an
absent key, and no optimizer instance is produced. -/
theorem construct_missing_key (n d : ℕ) (o : OptionsDict)
    (vc : Option (List ℚ)) (sig : ℚ → ℚ) (seed : ℕ)
    (h : ∃ key ∈ requiredKeys, hasKey o key = false) :
    ∃ key, hasKey o key = false ∧
      construct n d o vc sig seed = .error (.MissingOption key) := by
  rcases o with ⟨c1, c2, w, k, p⟩
  cases c1 with
  | none => exact ⟨"c1", rfl, rfl⟩
  | some a1 =>
    cases c2 with
    | none => exact ⟨"c2", rfl, rfl⟩
    | some a2 =>
      cases w with
      | none => exact ⟨"w", rfl, rfl⟩
      | some a3 =>
        cases k with
        | none => exact ⟨"k", rfl, rfl⟩
        | some a4 =>
          cases p with
          | none => exact ⟨"p", rfl, rfl⟩
          | some a5 =>
            exfalso
            rcases h with ⟨key, hmem, hfalse⟩
            simp only [requiredKeys, List.mem_cons, List.not_mem_nil, or_false] at hmem
            rcases hmem with rfl | rfl | rfl | rfl | rfl <;> simp [hasKey] at hfalse

/-- C4 witness: the theorem applied to the options of
`test_keyword_check_fail` with c1 omitted. -/
theorem construct_missing_key_witness :
    ∃ key, hasKey ⟨none, some (7/10), some (1/2), some 2, some 2⟩ key = false ∧
      construct 5 2 ⟨none, some (7/10), some (1/2), some 2, some 2⟩ none
        (fun _ => 1/2) 0 = .error (.MissingOption key) :=
  construct_missing_key 5 2 _ none (fun _ => 1/2) 0 ⟨"c1", by decide, by decide⟩

/-- C5: for a complete options mapping, construction fails with
InvalidParameter when k is outside 0 < k ≤ n_particles or when p is not 1
or 2; when both are in range the validator passes the k and p checks and
reduces to the velocity-clamp check. -/
theorem construct_invalid_k_p (n d : ℕ) (o : OptionsDict) (vc : Option (List ℚ))
    (sig : ℚ → ℚ) (seed : ℕ) (hc : complete o) :
    (¬ (0 < o.k.getD 0 ∧ o.k.getD 0 ≤ (n : ℤ)) →
      construct n d o vc sig seed = .error .InvalidParameter) ∧
    (¬ (o.p.getD 0 = 1 ∨ o.p.getD 0 = 2) →
      construct n d o vc sig seed = .error .InvalidParameter) ∧
    ((0 < o.k.getD 0 ∧ o.k.getD 0 ≤ (n : ℤ)) → (o.p.getD 0 = 1 ∨ o.p.getD 0 = 2) →
      validateOptions o n vc = checkClamp vc) := by
  rcases o with ⟨c1, c2, w, k, p⟩
  obtain ⟨h1, h2, h3, h4, h5⟩ := hc
  cases c1 with
  | none => simp at h1
  | some a1 =>
  cases c2 with
  | none => simp at h2
  | some a2 =>
  cases w with
  | none => simp at h3
  | some a3 =>
  cases k with
  | none => simp at h4
  | some kv =>
  cases p with
  | none => simp at h5
  | some pv =>
  refine ⟨?_, ?_, ?_⟩
  · intro hk
    simp only [Option.getD_some] at hk
    simp [construct, validateOptions, hk]
  · intro hp
    simp only [Option.getD_some] at hp
    by_cases hk : 0 < kv ∧ kv ≤ (n : ℤ)
    · simp [construct, validateOptions, hk, hp]
    · simp [construct, validateOptions, hk]
  · intro hk hp
    simp only [Option.getD_some] at hk hp
    simp [validateOptions, hk, hp]

/-- C5 witness: the theorem applied to the options of `test_k_fail`
(n_particles = 5, k = -1). -/
theorem construct_invalid_k_p_witness :
    construct 5 2 ⟨some (1/2), some (7/10), some (1/2), some (-1), some 2⟩ none
      (fun _ => 1/2) 0 = .error .InvalidParameter :=
  (construct_invalid_k_p 5 2
    ⟨some (1/2), some (7/10), some (1/2), some (-1), some 2⟩ none
    (fun _ => 1/2) 0 ⟨rfl, rfl, rfl, rfl, rfl⟩).1 (by decide)

/-- Complete options whose k and p pass their checks, so that construction
reaches the velocity-clamp check. -/
def validKP (o : OptionsDict) (n : ℕ) : Prop :=
  complete o ∧ (0 < o.k.getD 0 ∧ o.k.getD 0 ≤ (n : ℤ)) ∧
    (o.p.getD 0 = 1 ∨ o.p.getD 0 = 2)

/-- C6: for every velocity clamp argument, construction (from otherwise
valid options) fails with TypeMismatch when the clamp is not a 2-element
ordered pair, fails with InvalidParameter when it is a pair (v_min, v_max)
with v_min ≥ v_max, succeeds when v_min < v_max, and the clamp check
passes exactly when the clamp is a pair with v_min < v_max. -/
theorem construct_clamp_check (n d : ℕ) (o : OptionsDict) (sig : ℚ → ℚ)
    (seed : ℕ) (vc : List ℚ) (hv : validKP o n) :
    (vc.length ≠ 2 → construct n d o (some vc) sig seed = .error .TypeMismatch) ∧
    (∀ a b : ℚ, vc = [a, b] → b ≤ a →
      construct n d o (some vc) sig seed = .error .InvalidParameter) ∧
    (∀ a b : ℚ, vc = [a, b] → a < b →
      ∃ s, construct n d o (some vc) sig seed = .ok s) ∧
    (checkClamp (some vc) = none ↔ ∃ a b : ℚ, vc = [a, b] ∧ a < b) := by
  obtain ⟨hc, hk, hp⟩ := hv
  rcases o with ⟨c1, c2, w, k, p⟩
  obtain ⟨h1, h2, h3, h4, h5⟩ := hc
  cases c1 with
  | none => simp at h1
  | some a1 =>
  cases c2 with
  | none => simp at h2
  | some a2 =>
  cases w with
  | none => simp at h3
  | some a3 =>
  cases k with
  | none => simp at h4
  | some kv =>
  cases p with
  | none => simp at h5
  | some pv =>
  simp only [Option.getD_some] at hk hp
  have hval : validateOptions ⟨some a1, some a2, some a3, some kv, some pv⟩ n
      (some vc) = checkClamp (some vc) := by
    simp [validateOptions, hk, hp]
  refine ⟨?_, ?_, ?_, ?_⟩
  · intro hlen
    have hcl : checkClamp (some vc) = some .TypeMismatch := by
      simp [checkClamp, hlen]
    simp [construct, hval, hcl]
  · rintro a b rfl hba
    have hcl : checkClamp (some [a, b]) = some .InvalidParameter := by
      simp [checkClamp, hba]
    simp [construct, hval, hcl]
  · rintro a b rfl hab
    have hcl : checkClamp (some [a, b]) = none := by
      simp [checkClamp, not_le.2 hab]
    refine ⟨initSwarm
      { n_particles := n, dimensions := d, c1 := a1, c2 := a2, w := a3,
        k := kv.toNat, p := pv, velocity_clamp := some (a, b),
        sigmoid := sig } seed, ?_⟩
    simp [construct, hval, hcl]
  · constructor
    · intro hnone
      match vc, hnone with
      | [a, b], hnone =>
        refine ⟨a, b, rfl, ?_⟩
        by_contra hab
        simp [checkClamp, not_lt.1 hab] at hnone
    · rintro ⟨a, b, rfl, hab⟩
      simp [checkClamp, not_le.2 hab]

/-- C6 witness: the theorem applied to velocity_clamp = (3, 2) as in
`test_vclamp_minmax_fail`. -/
theorem construct_clamp_check_witness :
    construct 5 2 ⟨some (1/2), some (7/10), some (1/2), some 2, some 2⟩
      (some [3, 2]) (fun _ => 1/2) 0 = .error .InvalidParameter :=
  (construct_clamp_check 5 2
    ⟨some (1/2), some (7/10), some (1/2), some 2, some 2⟩ (fun _ => 1/2) 0
    [3, 2] ⟨⟨rfl, rfl, rfl, rfl, rfl⟩, by decide, by decide⟩).2.1 3 2 rfl
    (by norm_num)

/-- C7: for every optimizer state, including the state reached by a
completed optimize run, a call to reset() leaves the swarm-wide best cost
at +∞ (the top element) and the swarm-wide best position undefined. -/
theorem reset_restores_best (cfg : PSOConfig) (s : Swarm) (f : List Bool → ℚ)
    (N : ℕ) :
    (reset cfg s).best_cost = ⊤ ∧ (reset cfg s).best_pos = none ∧
    (reset cfg (optimize cfg f N s)).best_cost = ⊤ ∧
    (reset cfg (optimize cfg f N s)).best_pos = none :=
  ⟨rfl, rfl, rfl, rfl⟩

/-- A matrix with n rows, each of length d. -/
def Mat (n d : ℕ) {α : Type} (m : List (List α)) : Prop :=
  m.length = n ∧ ∀ r ∈ m, r.length = d

/-- Shape invariant of a swarm for a given configuration. -/
def WF (cfg : PSOConfig) (s : Swarm) : Prop :=
  Mat cfg.n_particles cfg.dimensions s.pos ∧
  Mat cfg.n_particles cfg.dimensions s.vel ∧
  Mat cfg.n_particles cfg.dimensions s.pbest_pos ∧
  s.pbest_cost.length = cfg.n_particles

theorem drawList_length (n g : ℕ) : (drawList n g).1.length = n := by
  induction n generalizing g with
  | zero => rfl
  | succ n ih => simp [drawList, ih]

theorem drawMatrix_length (r c g : ℕ) : (drawMatrix r c g).1.length = r := by
  induction r generalizing g with
  | zero => rfl
  | succ r ih => simp [drawMatrix, ih]

theorem drawMatrix_rows (r c g : ℕ) :
    ∀ row ∈ (drawMatrix r c g).1, row.length = c := by
  induction r generalizing g with
  | zero => intro row h; simp [drawMatrix] at h
  | succ r ih =>
    intro row h
    simp only [drawMatrix, List.mem_cons] at h
    rcases h with rfl | h
    · exact drawList_length c g
    · exact ih _ row h

theorem drawMatrix_mat (r c g : ℕ) : Mat r c (drawMatrix r c g).1 :=
  ⟨drawMatrix_length r c g, drawMatrix_rows r c g⟩

theorem drawBitMatrix_mat (r c g : ℕ) : Mat r c (drawBitMatrix r c g).1 := by
  constructor
  · simp [drawBitMatrix, drawMatrix_length]
  · intro row h
    simp only [drawBitMatrix, List.mem_map] at h
    rcases h with ⟨row', h', rfl⟩
    simp [drawMatrix_rows r c g row' h']

theorem initSwarm_WF (cfg : PSOConfig) (seed : ℕ) : WF cfg (initSwarm cfg seed) := by
  refine ⟨drawBitMatrix_mat _ _ _, ⟨?_, ?_⟩, drawBitMatrix_mat _ _ _, ?_⟩
  · simp [initSwarm]
  · intro r hr
    simp only [initSwarm, List.mem_replicate] at hr
    simp [hr.2]
  · simp [initSwarm]

theorem mem_insertSorted (a b : ℕ × ℕ) (l : List (ℕ × ℕ)) :
    b ∈ insertSorted a l ↔ b = a ∨ b ∈ l := by
  induction l with
  | nil => simp [insertSorted]
  | cons c cs ih =>
    simp only [insertSorted]
    split
    · simp [List.mem_cons]
    · simp only [List.mem_cons, ih]
      tauto

theorem mem_sortPairs (b : ℕ × ℕ) (l : List (ℕ × ℕ)) :
    b ∈ sortPairs l ↔ b ∈ l := by
  induction l with
  | nil => simp [sortPairs]
  | cons a l ih => simp [sortPairs, mem_insertSorted, ih]

theorem neighbors_lt (k : ℕ) (pos : List (List Bool)) (i j : ℕ)
    (h : j ∈ neighbors k pos i) : j < pos.length := by
  simp only [neighbors, List.mem_map] at h
  rcases h with ⟨p, hp, rfl⟩
  have hp' := List.mem_of_mem_take hp
  rw [mem_sortPairs] at hp'
  simp only [List.mem_map, List.mem_range] at hp'
  rcases hp' with ⟨j', hj', rfl⟩
  exact hj'

theorem argminCost_mem (costs : List (WithTop ℚ)) :
    ∀ (cs : List ℕ) (c : ℕ), argminCost costs (c :: cs) ∈ c :: cs := by
  intro cs
  induction cs with
  | nil => intro c; simp [argminCost]
  | cons j cs ih =>
    intro c
    simp only [argminCost, List.foldl_cons]
    have h := ih (if costs.getD j ⊤ < costs.getD c ⊤ then j else c)
    simp only [argminCost] at h
    rcases List.mem_cons.1 h with h1 | h1
    · rw [h1]
      split
      · simp
      · simp
    · exact List.mem_cons.2 (Or.inr (List.mem_cons.2 (Or.inr h1)))

theorem getD_mem {α : Type} (l : List α) (j : ℕ) (x : α) (h : j < l.length) :
    l.getD j x ∈ l := by
  rw [List.getD_eq_getElem?_getD, List.getElem?_eq_getElem h]
  simp

theorem velRow_length (cfg : PSOConfig) (v x pb nb r1 r2 : List ℚ) :
    (velRow cfg v x pb nb r1 r2).length
      = min v.length (min x.length (min pb.length
          (min nb.length (min r1.length r2.length)))) := by
  simp [velRow, List.length_zip]

theorem posRow_length (cfg : PSOConfig) (v u : List ℚ) :
    (posRow cfg v u).length = min v.length u.length := by
  simp [posRow, List.length_zip]

theorem updPB_length (costs : List ℚ) (pbc : List (WithTop ℚ))
    (pos pbp : List (List Bool)) :
    (updPB costs pbc pos pbp).length
      = min costs.length (min pbc.length (min pos.length pbp.length)) := by
  simp [updPB, List.length_zip]

theorem velMat_length (cfg : PSOConfig) (vel : List (List ℚ))
    (pos pbp nb : List (List Bool)) (r1 r2 : List (List ℚ)) :
    (velMat cfg vel pos pbp nb r1 r2).length
      = min vel.length (min pos.length (min pbp.length
          (min nb.length (min r1.length r2.length)))) := by
  simp [velMat, List.length_zip]

theorem posMat_length (cfg : PSOConfig) (vel u : List (List ℚ)) :
    (posMat cfg vel u).length = min vel.length u.length := by
  simp [posMat, List.length_zip]

theorem velMat_rows (cfg : PSOConfig) (d : ℕ) (vel : List (List ℚ))
    (pos pbp nb : List (List Bool)) (r1 r2 : List (List ℚ))
    (hv : ∀ r ∈ vel, r.length = d) (hx : ∀ r ∈ pos, r.length = d)
    (hp : ∀ r ∈ pbp, r.length = d) (hn : ∀ r ∈ nb, r.length = d)
    (h1 : ∀ r ∈ r1, r.length = d) (h2 : ∀ r ∈ r2, r.length = d) :
    ∀ r ∈ velMat cfg vel pos pbp nb r1 r2, r.length = d := by
  intro r hr
  simp only [velMat, List.mem_map] at hr
  rcases hr with ⟨t, ht, rfl⟩
  rcases t with ⟨v, x, pb, nbr, a, b⟩
  obtain ⟨m1, hrest⟩ := List.of_mem_zip ht
  obtain ⟨m2, hrest⟩ := List.of_mem_zip hrest
  obtain ⟨m3, hrest⟩ := List.of_mem_zip hrest
  obtain ⟨m4, hrest⟩ := List.of_mem_zip hrest
  obtain ⟨m5, m6⟩ := List.of_mem_zip hrest
  rw [velRow_length]
  simp [hv v m1, hx x m2, hp pb m3, hn nbr m4, h1 a m5, h2 b m6]

theorem posMat_rows (cfg : PSOConfig) (d : ℕ) (vel u : List (List ℚ))
    (hv : ∀ r ∈ vel, r.length = d) (hu : ∀ r ∈ u, r.length = d) :
    ∀ r ∈ posMat cfg vel u, r.length = d := by
  intro r hr
  simp only [posMat, List.mem_map] at hr
  rcases hr with ⟨t, ht, rfl⟩
  rcases t with ⟨v, w⟩
  obtain ⟨m1, m2⟩ := List.of_mem_zip ht
  rw [posRow_length]
  simp [hv v m1, hu w m2]

theorem stepPBPos_rows (f : List Bool → ℚ) (s : Swarm) :
    ∀ r ∈ stepPBPos f s, r ∈ s.pos ∨ r ∈ s.pbest_pos := by
  intro r hr
  simp only [stepPBPos, stepPB, updPB, List.mem_map] at hr
  rcases hr with ⟨y, ⟨t, ht, rfl⟩, rfl⟩
  rcases t with ⟨c, pc, x, pp⟩
  obtain ⟨m1, hrest⟩ := List.of_mem_zip ht
  obtain ⟨m2, hrest⟩ := List.of_mem_zip hrest
  obtain ⟨m3, m4⟩ := List.of_mem_zip hrest
  dsimp only
  split
  · exact Or.inl m3
  · exact Or.inr m4

theorem stepPB_length (cfg : PSOConfig) (f : List Bool → ℚ) (s : Swarm)
    (hw : WF cfg s) : (stepPB f s).length = cfg.n_particles := by
  obtain ⟨⟨hp, _⟩, _, ⟨hpb, _⟩, hpc⟩ := hw
  simp [stepPB, updPB, stepCosts, List.length_zip, hp, hpb, hpc]

theorem stepPBPos_mat (cfg : PSOConfig) (f : List Bool → ℚ) (s : Swarm)
    (hw : WF cfg s) : Mat cfg.n_particles cfg.dimensions (stepPBPos f s) := by
  constructor
  · simp [stepPBPos, stepPB_length cfg f s hw]
  · intro r hr
    rcases stepPBPos_rows f s r hr with h | h
    · exact hw.1.2 r h
    · exact hw.2.2.1.2 r h

theorem stepPBCost_length (cfg : PSOConfig) (f : List Bool → ℚ) (s : Swarm)
    (hw : WF cfg s) : (stepPBCost f s).length = cfg.n_particles := by
  simp [stepPBCost, stepPB_length cfg f s hw]

theorem stepNIdx_lt (cfg : PSOConfig) (f : List Bool → ℚ) (s : Swarm)
    (hw : WF cfg s) : ∀ j ∈ stepNIdx cfg f s, j < s.pos.length := by
  intro j hj
  simp only [stepNIdx, List.mem_map, List.mem_range] at hj
  rcases hj with ⟨i, hi, rfl⟩
  have hm := argminCost_mem (stepCostsW f s) (neighbors cfg.k s.pos i) i
  rcases List.mem_cons.1 hm with h | h
  · rw [h, hw.1.1]
    exact hi
  · exact neighbors_lt cfg.k s.pos i _ h

theorem stepNbPos_mat (cfg : PSOConfig) (f : List Bool → ℚ) (s : Swarm)
    (hw : WF cfg s) : Mat cfg.n_particles cfg.dimensions (stepNbPos cfg f s) := by
  constructor
  · simp [stepNbPos, stepNIdx]
  · intro r hr
    simp only [stepNbPos, List.mem_map] at hr
    rcases hr with ⟨j, hj, rfl⟩
    have hlt := stepNIdx_lt cfg f s hw j hj
    exact hw.1.2 _ (getD_mem s.pos j [] hlt)

theorem stepVel_mat (cfg : PSOConfig) (f : List Bool → ℚ) (s : Swarm)
    (hw : WF cfg s) : Mat cfg.n_particles cfg.dimensions (stepVel cfg f s) := by
  have hp1 := hw.1.1
  have hp2 := hw.1.2
  have hv1 := hw.2.1.1
  have hv2 := hw.2.1.2
  have hpbm := stepPBPos_mat cfg f s hw
  have hnbm := stepNbPos_mat cfg f s hw
  constructor
  · rw [stepVel, velMat_length]
    simp [hp1, hv1, hpbm.1, hnbm.1, stepR1, stepR2, drawMatrix_length]
  · rw [stepVel]
    exact velMat_rows cfg cfg.dimensions _ _ _ _ _ _ hv2 hp2 hpbm.2 hnbm.2
      (drawMatrix_rows _ _ _) (drawMatrix_rows _ _ _)

theorem stepPos_mat (cfg : PSOConfig) (f : List Bool → ℚ) (s : Swarm)
    (hw : WF cfg s) : Mat cfg.n_particles cfg.dimensions (stepPos cfg f s) := by
  have hvm := stepVel_mat cfg f s hw
  constructor
  · rw [stepPos, posMat_length]
    simp [hvm.1, stepU, drawMatrix_length]
  · rw [stepPos]
    exact posMat_rows cfg cfg.dimensions _ _ hvm.2 (drawMatrix_rows _ _ _)

theorem step_WF (cfg : PSOConfig) (f : List Bool → ℚ) (s : Swarm)
    (hw : WF cfg s) : WF cfg (step cfg f s) :=
  ⟨stepPos_mat cfg f s hw, stepVel_mat cfg f s hw, stepPBPos_mat cfg f s hw,
    stepPBCost_length cfg f s hw⟩

/-- Swarm shapes plus shapes of all recorded history snapshots. -/
def Inv (cfg : PSOConfig) (s : Swarm) : Prop :=
  WF cfg s ∧ (∀ P ∈ s.pos_history, Mat cfg.n_particles cfg.dimensions P) ∧
    (∀ V ∈ s.vel_history, Mat cfg.n_particles cfg.dimensions V)

theorem step_Inv (cfg : PSOConfig) (f : List Bool → ℚ) (s : Swarm)
    (h : Inv cfg s) : Inv cfg (step cfg f s) := by
  obtain ⟨hw, hph, hvh⟩ := h
  refine ⟨step_WF cfg f s hw, ?_, ?_⟩
  · intro P hP
    rcases List.mem_append.1 hP with hP | hP
    · exact hph P hP
    · rw [List.mem_singleton.1 hP]
      exact stepPos_mat cfg f s hw
  · intro V hV
    rcases List.mem_append.1 hV with hV | hV
    · exact hvh V hV
    · rw [List.mem_singleton.1 hV]
      exact stepVel_mat cfg f s hw

theorem optimize_Inv (cfg : PSOConfig) (f : List Bool → ℚ) :
    ∀ (N : ℕ) (s : Swarm), Inv cfg s → Inv cfg (optimize cfg f N s) := by
  intro N
  induction N with
  | zero => intro s h; exact h
  | succ n ih => intro s h; exact ih _ (step_Inv cfg f s h)

theorem optimize_hist_lengths (cfg : PSOConfig) (f : List Bool → ℚ) :
    ∀ (N : ℕ) (s : Swarm),
      (optimize cfg f N s).cost_history.length = s.cost_history.length + N ∧
      (optimize cfg f N s).mean_pbest_history.length
        = s.mean_pbest_history.length + N ∧
      (optimize cfg f N s).mean_neighbor_history.length
        = s.mean_neighbor_history.length + N ∧
      (optimize cfg f N s).pos_history.length = s.pos_history.length + N ∧
      (optimize cfg f N s).vel_history.length = s.vel_history.length + N := by
  intro N
  induction N with
  | zero => intro s; simp [optimize]
  | succ n ih =>
    intro s
    obtain ⟨h1, h2, h3, h4, h5⟩ := ih (step cfg f s)
    have e1 : (step cfg f s).cost_history.length = s.cost_history.length + 1 := by
      simp [step]
    have e2 : (step cfg f s).mean_pbest_history.length
        = s.mean_pbest_history.length + 1 := by
      simp [step]
    have e3 : (step cfg f s).mean_neighbor_history.length
        = s.mean_neighbor_history.length + 1 := by
      simp [step]
    have e4 : (step cfg f s).pos_history.length = s.pos_history.length + 1 := by
      simp [step]
    have e5 : (step cfg f s).vel_history.length = s.vel_history.length + 1 := by
      simp [step]
    refine ⟨?_, ?_, ?_, ?_, ?_⟩
    · show (optimize cfg f n (step cfg f s)).cost_history.length = _
      rw [h1, e1]
      omega
    · show (optimize cfg f n (step cfg f s)).mean_pbest_history.length = _
      rw [h2, e2]
      omega
    · show (optimize cfg f n (step cfg f s)).mean_neighbor_history.length = _
      rw [h3, e3]
      omega
    · show (optimize cfg f n (step cfg f s)).pos_history.length = _
      rw [h4, e4]
      omega
    · show (optimize cfg f n (step cfg f s)).vel_history.length = _
      rw [h5, e5]
      omega

/-- C8: after a run of N iterations from a freshly initialized swarm, the
cost history, the mean personal-best history and the mean neighborhood-best
history each have exactly N entries, and the position history and velocity
history each have exactly N entries of shape n_particles × dimensions. -/
theorem optimize_history_sizes (cfg : PSOConfig) (f : List Bool → ℚ)
    (N seed : ℕ) :
    (optimize cfg f N (initSwarm cfg seed)).cost_history.length = N ∧
    (optimize cfg f N (initSwarm cfg seed)).mean_pbest_history.length = N ∧
    (optimize cfg f N (initSwarm cfg seed)).mean_neighbor_history.length = N ∧
    (optimize cfg f N (initSwarm cfg seed)).pos_history.length = N ∧
    (optimize cfg f N (initSwarm cfg seed)).vel_history.length = N ∧
    (∀ P ∈ (optimize cfg f N (initSwarm cfg seed)).pos_history,
      Mat cfg.n_particles cfg.dimensions P) ∧
    (∀ V ∈ (optimize cfg f N (initSwarm cfg seed)).vel_history,
      Mat cfg.n_particles cfg.dimensions V) := by
  obtain ⟨h1, h2, h3, h4, h5⟩ := optimize_hist_lengths cfg f N (initSwarm cfg seed)
  have hinv := optimize_Inv cfg f N (initSwarm cfg seed)
    ⟨initSwarm_WF cfg seed, by simp [initSwarm], by simp [initSwarm]⟩
  simp only [initSwarm, List.length_nil, Nat.zero_add] at h1 h2 h3 h4 h5
  exact ⟨h1, h2, h3, h4, h5, hinv.2.1, hinv.2.2⟩

theorem stepBestCost_le (cfg : PSOConfig) (f : List Bool → ℚ) (s : Swarm) :
    stepBestCost cfg f s ≤ s.best_cost := by
  rw [stepBestCost]
  split
  · exact le_of_lt (by assumption)
  · exact le_refl _

/-- The cost history is non-increasing and its last entry is the current
swarm-wide best cost. -/
def HistOk (s : Swarm) : Prop :=
  List.Chain' (fun a b => b ≤ a) s.cost_history ∧
    s.cost_history.getLastD ⊤ = s.best_cost

theorem step_HistOk (cfg : PSOConfig) (f : List Bool → ℚ) (s : Swarm)
    (h : HistOk s) : HistOk (step cfg f s) := by
  obtain ⟨hc, hl⟩ := h
  have hhist : (step cfg f s).cost_history
      = s.cost_history ++ [stepBestCost cfg f s] := rfl
  constructor
  · rw [hhist, List.chain'_append]
    refine ⟨hc, List.chain'_singleton _, ?_⟩
    intro x hx y hy
    simp only [List.head?_cons, Option.mem_def, Option.some.injEq] at hy
    subst hy
    have hxb : x = s.best_cost := by
      rw [← hl]
      cases hgl : s.cost_history.getLast? with
      | none =>
        rw [hgl] at hx
        simp at hx
      | some z =>
        rw [hgl] at hx
        simp only [Option.mem_def, Option.some.injEq] at hx
        subst hx
        simp [List.getLastD_eq_getLast?, hgl]
    rw [hxb]
    exact stepBestCost_le cfg f s
  · rw [hhist, List.getLastD_concat]
    rfl

theorem optimize_HistOk (cfg : PSOConfig) (f : List Bool → ℚ) :
    ∀ (N : ℕ) (s : Swarm), HistOk s → HistOk (optimize cfg f N s) := by
  intro N
  induction N with
  | zero => intro s h; exact h
  | succ n ih => intro s h; exact ih _ (step_HistOk cfg f s h)

/-- C9: over a run from a freshly initialized swarm the recorded cost
history is monotonically non-increasing (each entry is at most its
predecessor), and the best cost returned by optimize is consistent with
the sequence: it equals the last recorded entry (the initial +∞ when no
iteration ran). -/
theorem optimize_cost_history_monotone (cfg : PSOConfig) (f : List Bool → ℚ)
    (N seed : ℕ) :
    List.Chain' (fun a b => b ≤ a)
      (optimize cfg f N (initSwarm cfg seed)).cost_history ∧
    (optimize cfg f N (initSwarm cfg seed)).cost_history.getLastD ⊤
      = (optimize cfg f N (initSwarm cfg seed)).best_cost :=
  optimize_HistOk cfg f N (initSwarm cfg seed) ⟨List.chain'_nil, rfl⟩

end PySwarmsProof
